import Mathlib

/-!
Verification development for the news-portal scraping pipeline (scrape.py).

Texts are modelled as lists of characters; Python string operations become
the corresponding list operations (lowering maps Char.toLower over the list,
substring containment is explicit, str.strip removes whitespace at both
ends).  External effects (HTTP fetches, HTML parsing, feed parsing) are
modelled at their interface boundary: the pipeline functions take the
outcome of each external call as an explicit argument, and everything the
script computes from those outcomes is translated directly from the source.
-/

set_option maxRecDepth 100000

abbrev Txt := List Char

/-- Conversion from a Lean string literal to the character-list model. -/
def strL (s : String) : Txt := s.toList

/-- Python str.lower, per character (ASCII model). -/
def lowerL (s : Txt) : Txt := s.map Char.toLower

/-- leadsWith needle hay: hay starts with needle. -/
def leadsWith : Txt → Txt → Bool
  | [], _ => true
  | _ :: _, [] => false
  | a :: as, b :: bs => a == b && leadsWith as bs

/-- Python substring containment, needle in hay. -/
def hasSub (needle : Txt) : Txt → Bool
  | [] => needle.isEmpty
  | b :: bs => leadsWith needle (b :: bs) || hasSub needle bs

/-- Remove trailing whitespace. -/
def dropEndWS (l : Txt) : Txt := (l.reverse.dropWhile Char.isWhitespace).reverse

/-- Python str.strip: remove leading and trailing whitespace. -/
def stripL (l : Txt) : Txt := dropEndWS (l.dropWhile Char.isWhitespace)

/-- Terminal sentence punctuation of the regex character class [.!?]. -/
def isPunct (c : Char) : Bool := c == '.' || c == '!' || c == '?'

/-- State machine for re.split with pattern "(?<=[.!?])\\s+": a run of
whitespace preceded by terminal punctuation separates segments and is
consumed.  Mode true means we are inside such a whitespace run; acc holds
the current segment reversed. -/
def splitGo : Bool → Char → Txt → Txt → List Txt
  | _, _, [], acc => [acc.reverse]
  | true, prev, c :: rest, acc =>
    if c.isWhitespace then splitGo true prev rest acc
    else splitGo false c rest (c :: acc)
  | false, prev, c :: rest, acc =>
    if isPunct prev && c.isWhitespace then acc.reverse :: splitGo true prev rest []
    else splitGo false c rest (c :: acc)

/-- re.split of the sentence-boundary pattern over the whole text. -/
def splitSents (t : Txt) : List Txt := splitGo false ' ' t []

/-- KEYWORD_CATEGORIES configuration: category label to keyword phrases. -/
def KEYWORD_CATEGORIES : List (String × List String) := [
  ("Investment & Expansion", [
    "new investment","investment plan","capex","capital expenditure","expansion",
    "expansion plan","growth strategy","capacity expansion","greenfield","brownfield",
    "new facility","new plant","manufacturing plant","production facility","factory expansion",
    "new site","site selection","location scouting","relocation","footprint expansion",
    "supply chain expansion"]),
  ("Geographic Markets", [
    "entering india","india investment","india expansion","asia expansion","apac expansion",
    "emerging markets expansion","gcc expansion","middle east expansion",
    "southeast asia expansion","africa expansion","latin america expansion"]),
  ("Employment / Headcount", [
    "headcount expansion","hiring plans","jobs creation","talent expansion",
    "recruitment drive","workforce expansion"]),
  ("Deals & Partnerships", [
    "mou","partnership","strategic partnership","jv","joint venture","collaboration",
    "investment agreement"]),
  ("Manufacturing & Industrial", [
    "manufacturing capacity","assembly plant","production ramp-up","industrial park",
    "automation upgrade","supply chain diversification","reshoring","nearshoring"]),
  ("Automotive & EV", [
    "ev plant","battery factory","gigafactory","ev supply chain","auto components expansion",
    "charging infrastructure investment"]),
  ("Electronics & Semiconductors", [
    "semiconductor fab","atmp plant","chip manufacturing","foundry expansion",
    "pcb manufacturing","electronics assembly plant","r&d center expansion"]),
  ("Lifesciences, Pharma & Biotech", [
    "api facility","formulations plant","clinical trial expansion","biomanufacturing",
    "vaccine production","fda approval","gmp manufacturing expansion"]),
  ("IT, Digital Services & GCCs", [
    "global capability center","it hub","delivery center","technology center",
    "r&d center","digital innovation hub","ai/ml lab","cloud center","engineering center"]),
  ("Energy, Renewables, Oil & Gas", [
    "solar plant","wind farm","renewable energy project","battery storage plant",
    "green hydrogen","refinery expansion","lng project","energy transition investment"]),
  ("Retail, E-commerce & Consumer Goods", [
    "warehouse expansion","fulfillment center","distribution center","store expansion",
    "retail rollout","supply chain hub"]),
  ("Chemicals & Materials", [
    "chemical plant expansion","materials facility","polymer plant",
    "specialty chemicals investment","capacity addition"]),
  ("Aerospace & Defense", [
    "aerospace manufacturing","defense offset investment","mro facility","assembly line expansion"]),
  ("Add-on Signals", [
    "procurement tender","land acquisition","large-scale hiring","orders placed for equipment",
    "fte increase","expansion capex cycle","supply agreement","long-term leasing",
    "infrastructure upgrade","capacity utilization approaching peak","record backlog",
    "new contract win","hiring"])]

/-- Python-dict insertion d[k] = v: update the value in place when the key
is present (keeping its position), otherwise append at the end. -/
def dinsert {α : Type} : List (Txt × α) → Txt → α → List (Txt × α)
  | [], k, v => [(k, v)]
  | p :: d, k, v => if k = p.1 then (p.1, v) :: d else p :: dinsert d k v

/-- Python-dict lookup d.get(k). -/
def dlookup {α : Type} : List (Txt × α) → Txt → Option α
  | [], _ => none
  | p :: d, k => if p.1 = k then some p.2 else dlookup d k

/-- ALL_KEYWORDS: flattened lower-cased keyword list in configuration order. -/
def ALL_KEYWORDS : List Txt :=
  KEYWORD_CATEGORIES.foldl (fun acc p => acc ++ p.2.map (fun kw => lowerL kw.toList)) []

/-- KEYWORD_TO_CATEGORY: keyword to category, last write wins. -/
def KEYWORD_TO_CATEGORY : List (Txt × Txt) :=
  KEYWORD_CATEGORIES.foldl
    (fun d p => p.2.foldl (fun d2 kw => dinsert d2 (lowerL kw.toList) p.1.toList) d) []

/-- KEYWORDS_SET: the set of all keywords (deduplicated). -/
def KEYWORDS_SET : List Txt := ALL_KEYWORDS.dedup

/-- match_keywords(text): every lexicon keyword occurring as a substring of
text.lower(). -/
def match_keywords (text : Txt) : List Txt :=
  KEYWORDS_SET.filter (fun k => hasSub k (lowerL text))

/-- match_keyword_categories(matched_keywords): the set of categories of the
matched keywords, as a list. -/
def match_keyword_categories (matched : List Txt) : List Txt :=
  (matched.map (fun k => (dlookup KEYWORD_TO_CATEGORY k).getD [])).dedup

/-- match_companies(text, companies): the entries c of companies with c
truthy (non-empty) and c a substring of text.lower(), in list order. -/
def match_companies (text : Txt) (companies : List Txt) : List Txt :=
  companies.filter (fun c => !c.isEmpty && hasSub c (lowerL text))

/-- extract_matched_sentences(full_text, matched_keywords): empty unless
both inputs are non-empty; otherwise split into sentences, keep those whose
lower-cased form contains a matched keyword, and return them stripped. -/
def extract_matched_sentences (full_text : Txt) (matched_keywords : List Txt) : List Txt :=
  if full_text = [] ∨ matched_keywords = [] then []
  else
    ((splitSents full_text).filter
        (fun s => (matched_keywords.map lowerL).any (fun k => hasSub k (lowerL s)))).map stripL

/-- Outcome of json.loads on the selected ld+json script body: the load
raised, or produced a non-dict value, or produced a dict whose articleBody
field is the given text (empty standing for a missing or falsy field). -/
inductive LdParse where
  | fail : LdParse
  | notDict : LdParse
  | dict : Txt → LdParse
deriving DecidableEq

/-- Interface model of one HTML document as seen by extract_from_html:
the outcome of the structured-data lookup (none when no ld+json script is
selected), of the readability stage (none when it raised), and of the
raw get_text stage (none when it raised). -/
structure HtmlDoc where
  jsonLd : Option LdParse
  readabilityText : Option Txt
  rawText : Option Txt

/-- Last resort of extract_from_html: soup.get_text, empty on exception. -/
def rawStage (d : HtmlDoc) : Txt :=
  match d.rawText with
  | some t => t
  | none => []

/-- Readability fallback of extract_from_html: accept the extracted text
only when longer than 50 characters, otherwise fall through to raw text. -/
def readabilityStage (d : HtmlDoc) : Txt :=
  match d.readabilityText with
  | some t => if 50 < t.length then t else rawStage d
  | none => rawStage d

/-- extract_from_html: JSON-LD articleBody, else readability, else raw text. -/
def extract_from_html (d : HtmlDoc) : Txt :=
  match d.jsonLd with
  | some (LdParse.dict ab) => if ab = [] then readabilityStage d else ab
  | _ => readabilityStage d

/-- The structured-data stage yields no usable body: every way the selected
script can parse to a dict gives an empty (falsy) articleBody. -/
def ldNoBody (d : HtmlDoc) : Prop :=
  ∀ ab, d.jsonLd = some (LdParse.dict ab) → ab = []

/-- Provenance metadata stored per discovered URL. -/
structure Meta where
  source_type : Txt
  source_name : Option Txt
  feed_name : Txt
  feed_url : Option Txt
  published_at : Int

/-- One feed entry as discover_from_rss reads it: derived published and
updated timestamps (none when absent or unparsable) and the link and id
fields (empty standing for missing or falsy). -/
structure FeedEntry where
  published : Option Int
  updated : Option Int
  link : Txt
  idStr : Txt

/-- Parsed feed payload: the feed-level title lookup outcome (outer none
when the feed dict is missing or empty, inner value the title field) and
the entry list. -/
structure FeedData where
  feedDict : Option (Option Txt)
  entries : List FeedEntry

/-- One configured feed: name, address, and parse outcome (none when
feedparser raised). -/
structure Feed where
  name : Txt
  url : Txt
  parsed : Option FeedData

/-- Timestamp derivation: published, else updated, else the current time. -/
def entryTimestamp (now : Int) (e : FeedEntry) : Int :=
  match e.published with
  | some t => t
  | none =>
    match e.updated with
    | some t => t
    | none => now

/-- entry.get("link") or entry.get("id"). -/
def entryLink (e : FeedEntry) : Txt := if e.link = [] then e.idStr else e.link

/-- feed_title: the feed dict title when the feed dict is present and
truthy, else the configured feed name. -/
def feedTitleOf (fd : FeedData) (feedName : Txt) : Option Txt :=
  match fd.feedDict with
  | some t => t
  | none => some feedName

/-- The per-entry body of discover_from_rss: reject entries older than the
cutoff, then entries with no link nor id; accepted entries yield the link
and its provenance record. -/
def processEntry (cutoff now : Int) (sourceName : Option Txt) (feedName feedUrl : Txt)
    (e : FeedEntry) : Option (Txt × Meta) :=
  let pubDt := entryTimestamp now e
  if pubDt < cutoff then none
  else if entryLink e = [] then none
  else some (entryLink e, ⟨strL "rss", sourceName, feedName, some feedUrl, pubDt⟩)

/-- discover_from_rss: fold all feeds and entries into the URL dict. -/
def discover_from_rss (cutoff now : Int) (feeds : List Feed) : List (Txt × Meta) :=
  feeds.foldl (fun disc feed =>
    match feed.parsed with
    | none => disc
    | some fd =>
      fd.entries.foldl (fun d e =>
        match processEntry cutoff now (feedTitleOf fd feed.name) feed.name feed.url e with
        | none => d
        | some lm => dinsert d lm.1 lm.2) disc) []

/-- dict.update: insert every pair of e into d, overwriting on key clash. -/
def dupdate {α : Type} (d e : List (Txt × α)) : List (Txt × α) :=
  e.foldl (fun acc p => dinsert acc p.1 p.2) d

/-- The discovery registry built from a sequence of keyed insertions. -/
def discoverAll {α : Type} (ins : List (Txt × α)) : List (Txt × α) := dupdate [] ins

/-- First-some choice on options. -/
def orElseO {α : Type} : Option α → Option α → Option α
  | some v, _ => some v
  | none, b => b

/-- The value of the last pair carrying key u in the insertion sequence. -/
def lastWrite {α : Type} : List (Txt × α) → Txt → Option α
  | [], _ => none
  | p :: rest, u => orElseO (lastWrite rest u) (if p.1 = u then some p.2 else none)

/-- Outcome of requests.get on one URL: an exception, or a response with a
status code and body text. -/
inductive FetchOutcome where
  | err : FetchOutcome
  | resp : Nat → Txt → FetchOutcome

/-- html as the main loop computes it: response text on status 200, empty
on any other status or on an exception. -/
def htmlOf : FetchOutcome → Txt
  | FetchOutcome.err => []
  | FetchOutcome.resp status text => if status = 200 then text else []

/-- The output record assembled per matched document. -/
structure MatchRecord where
  title : Txt
  url : Txt
  source_type : Txt
  source_name : Option Txt
  feed_name : Txt
  feed_url : Option Txt
  published_at : Int
  scraped_at : Int
  matched_companies : List Txt
  matched_keywords : List Txt
  matched_keyword_categories : List Txt
  matched_sentences : List Txt
  full_text : Txt
  snippet : Txt

/-- combined = (title + " " + full_text).strip().lower(). -/
def combinedText (title full_text : Txt) : Txt :=
  lowerL (stripL (title ++ [' '] ++ full_text))

/-- The per-URL body of the main loop, after discovery: fetch, skip on
empty html, extract body and title, match keywords on the combined text,
skip on zero matches, otherwise assemble the record.  extract and getTitle
stand for the externally computed extraction results on the fetched html. -/
def processURL (companies : List Txt) (extract getTitle : Txt → Txt) (scrapedAt : Int)
    (url : Txt) (meta : Meta) (f : FetchOutcome) : Option MatchRecord :=
  let html := htmlOf f
  if html = [] then none
  else
    let full_text := extract html
    let title := getTitle html
    let combined := combinedText title full_text
    let mk := match_keywords combined
    if mk = [] then none
    else some ⟨title, url, meta.source_type, meta.source_name, meta.feed_name, meta.feed_url,
      meta.published_at, scrapedAt, match_companies combined companies, mk,
      match_keyword_categories mk, extract_matched_sentences full_text mk, full_text,
      if full_text = [] then [] else full_text.take 400 ++ strL "..."⟩

/-- The fetch-extract-match loop of main over the discovered URL dict,
with its seen set; each URL is fetched once and appends at most one
record. -/
def mainLoop (companies : List Txt) (extract getTitle : Txt → Txt) (scrapedAt : Int)
    (fetch : Txt → FetchOutcome) : List (Txt × Meta) → List Txt → List MatchRecord
  | [], _ => []
  | (url, meta) :: rest, seen =>
    if url ∈ seen then mainLoop companies extract getTitle scrapedAt fetch rest seen
    else
      match processURL companies extract getTitle scrapedAt url meta (fetch url) with
      | none => mainLoop companies extract getTitle scrapedAt fetch rest (url :: seen)
      | some r => r :: mainLoop companies extract getTitle scrapedAt fetch rest (url :: seen)

/-! Substring and strip lemmas. -/

lemma leadsWith_iff (n : Txt) : ∀ h : Txt, leadsWith n h = true ↔ ∃ post, h = n ++ post := by
  induction n with
  | nil => intro h; simp [leadsWith]
  | cons a as ih =>
    intro h
    cases h with
    | nil => simp [leadsWith]
    | cons b bs =>
      simp only [leadsWith, Bool.and_eq_true, beq_iff_eq, ih bs]
      constructor
      · rintro ⟨rfl, post, rfl⟩; exact ⟨post, rfl⟩
      · rintro ⟨post, hp⟩
        rw [List.cons_append] at hp
        injection hp with h1 h2
        exact ⟨h1.symm, post, h2⟩

lemma hasSub_iff (n : Txt) : ∀ h : Txt, hasSub n h = true ↔ ∃ pre post, h = pre ++ n ++ post := by
  intro h
  induction h with
  | nil =>
    cases n with
    | nil => simp [hasSub]
    | cons a as => simp [hasSub]
  | cons b bs ih =>
    simp only [hasSub, Bool.or_eq_true, leadsWith_iff, ih]
    constructor
    · rintro (⟨post, h⟩ | ⟨pre, post, h⟩)
      · exact ⟨[], post, by simpa using h⟩
      · exact ⟨b :: pre, post, by rw [h]; rfl⟩
    · rintro ⟨pre, post, hh⟩
      cases pre with
      | nil => left; exact ⟨post, by simpa using hh⟩
      | cons p ps =>
        right
        simp only [List.cons_append, List.cons.injEq] at hh
        exact ⟨ps, post, hh.2⟩

lemma dropWhile_dropWhile (p : Char → Bool) : ∀ l : Txt, (l.dropWhile p).dropWhile p = l.dropWhile p := by
  intro l
  induction l with
  | nil => simp
  | cons a l ih =>
    by_cases h : p a = true
    · simp [List.dropWhile_cons, h, ih]
    · simp [List.dropWhile_cons, h]

lemma dropWhile_append_single (p : Char → Bool) (c : Char) (hc : p c = false) :
    ∀ xs : Txt, (xs ++ [c]).dropWhile p = xs.dropWhile p ++ [c] := by
  intro xs
  induction xs with
  | nil => simp [List.dropWhile_cons, hc]
  | cons a xs ih =>
    by_cases h : p a = true <;> simp [List.dropWhile_cons, h, ih]

lemma dropWhile_length_le (p : Char → Bool) : ∀ l : Txt, (l.dropWhile p).length ≤ l.length := by
  intro l
  induction l with
  | nil => simp
  | cons a l ih =>
    by_cases h : p a = true
    · rw [List.dropWhile_cons_of_pos h, List.length_cons]
      exact Nat.le_succ_of_le ih
    · rw [List.dropWhile_cons_of_neg (by simp [h])]

lemma dropEndWS_dropEndWS (l : Txt) : dropEndWS (dropEndWS l) = dropEndWS l := by
  unfold dropEndWS
  rw [List.reverse_reverse, dropWhile_dropWhile]

lemma dropWhile_fix_head {c : Char} {rest : Txt}
    (he : (c :: rest).dropWhile Char.isWhitespace = c :: rest) : c.isWhitespace = false := by
  by_cases hws : c.isWhitespace = true
  · rw [List.dropWhile_cons, if_pos hws] at he
    have hle := dropWhile_length_le Char.isWhitespace rest
    rw [he] at hle
    simp at hle
  · simpa using hws

lemma dropWhile_dropEndWS {t : Txt} (ht : t.dropWhile Char.isWhitespace = t) :
    (dropEndWS t).dropWhile Char.isWhitespace = dropEndWS t := by
  cases t with
  | nil => simp [dropEndWS]
  | cons c rest =>
    have hc : c.isWhitespace = false := dropWhile_fix_head ht
    unfold dropEndWS
    rw [List.reverse_cons, dropWhile_append_single Char.isWhitespace c hc,
      List.reverse_append]
    simp [List.dropWhile_cons, hc]

lemma stripL_idem (s : Txt) : stripL (stripL s) = stripL s := by
  unfold stripL
  rw [dropWhile_dropEndWS (dropWhile_dropWhile Char.isWhitespace s), dropEndWS_dropEndWS]

lemma dropEnd_decomp (t : Txt) :
    t = dropEndWS t ++ (t.reverse.takeWhile Char.isWhitespace).reverse := by
  conv_lhs => rw [← List.reverse_reverse t,
    ← List.takeWhile_append_dropWhile (p := Char.isWhitespace) (l := t.reverse)]
  rw [List.reverse_append]
  rfl

lemma strip_decomp (s : Txt) : ∃ pre post, s = pre ++ stripL s ++ post := by
  refine ⟨s.takeWhile Char.isWhitespace,
    ((s.dropWhile Char.isWhitespace).reverse.takeWhile Char.isWhitespace).reverse, ?_⟩
  conv_lhs => rw [← List.takeWhile_append_dropWhile (p := Char.isWhitespace) (l := s),
    dropEnd_decomp (s.dropWhile Char.isWhitespace)]
  rw [List.append_assoc]
  rfl

lemma splitGo_mem : ∀ (cur : Txt) (mode : Bool) (prev : Char) (acc : Txt) (s : Txt),
    (mode = true → acc = []) → s ∈ splitGo mode prev cur acc →
    ∃ pre post, acc.reverse ++ cur = pre ++ s ++ post := by
  intro cur
  induction cur with
  | nil =>
    intro mode prev acc s _ hs
    cases mode <;> simp [splitGo] at hs <;>
      exact ⟨[], [], by simp [hs]⟩
  | cons c rest ih =>
    intro mode prev acc s hm hs
    cases mode with
    | true =>
      have hacc : acc = [] := hm rfl
      subst hacc
      by_cases hws : c.isWhitespace = true
      · simp only [splitGo, hws, if_true] at hs
        obtain ⟨pre, post, h⟩ := ih true prev [] s (fun _ => rfl) hs
        simp only [List.reverse_nil, List.nil_append] at h ⊢
        exact ⟨c :: pre, post, by rw [h]; rfl⟩
      · simp only [splitGo, hws, if_false] at hs
        obtain ⟨pre, post, h⟩ := ih false c [c] s (by simp) hs
        simp only [List.reverse_cons, List.reverse_nil, List.nil_append] at h ⊢
        exact ⟨pre, post, by rw [← h]; rfl⟩
    | false =>
      by_cases hd : (isPunct prev && c.isWhitespace) = true
      · simp only [splitGo, hd, if_true, List.mem_cons] at hs
        rcases hs with rfl | hs
        · exact ⟨[], c :: rest, by simp⟩
        · obtain ⟨pre, post, h⟩ := ih true prev [] s (fun _ => rfl) hs
          simp only [List.reverse_nil, List.nil_append] at h
          exact ⟨acc.reverse ++ c :: pre, post, by
            rw [h]; simp [List.append_assoc]⟩
      · simp only [splitGo, hd, if_false] at hs
        obtain ⟨pre, post, h⟩ := ih false c (c :: acc) s (by simp) hs
        rw [List.reverse_cons] at h
        refine ⟨pre, post, ?_⟩
        rw [← h]
        simp [List.append_assoc]

lemma splitSents_mem {t s : Txt} (hs : s ∈ splitSents t) : ∃ pre post, t = pre ++ s ++ post := by
  have := splitGo_mem t false ' ' [] s (by simp) (by simpa [splitSents] using hs)
  simpa using this


/-! Claim theorems for the matcher. -/

/-- C2: for every text t and every keyword k of the built lexicon set,
match_keywords t contains k exactly when k occurs as a substring of the
lower-cased t; matching is bare substring containment with no word
boundary requirement. -/
theorem claim_C2 (t k : Txt) (hk : k ∈ KEYWORDS_SET) :
    k ∈ match_keywords t ↔ ∃ pre post, lowerL t = pre ++ k ++ post := by
  unfold match_keywords
  rw [List.mem_filter]
  constructor
  · rintro ⟨-, h⟩
    exact (hasSub_iff k (lowerL t)).mp h
  · intro h
    exact ⟨hk, (hasSub_iff k (lowerL t)).mpr h⟩

theorem claim_C2_wit : strL "hiring" ∈ match_keywords (strL "Subhiringworks expands fast") :=
  (claim_C2 (strL "Subhiringworks expands fast") (strL "hiring") (by decide)).mpr
    ⟨strL "sub", strL "works expands fast", by decide⟩

/-- C3: extract_matched_sentences returns the empty list without splitting
when the body or the keyword list is empty; otherwise it splits the body at
every terminal punctuation mark followed by whitespace and keeps, in
original order, exactly the segments whose lower-cased form contains a
matched keyword (returned stripped, per C10), and every returned sentence
is a verbatim contiguous substring of the body. -/
theorem claim_C3 (ft : Txt) (mk : List Txt) :
    (ft = [] ∨ mk = [] → extract_matched_sentences ft mk = []) ∧
    (ft ≠ [] → mk ≠ [] →
      extract_matched_sentences ft mk
        = ((splitSents ft).filter
            (fun s => (mk.map lowerL).any (fun k => hasSub k (lowerL s)))).map stripL) ∧
    (∀ s, s ∈ extract_matched_sentences ft mk → hasSub s ft = true) := by
  refine ⟨?_, ?_, ?_⟩
  · intro h
    simp only [extract_matched_sentences]
    rw [if_pos h]
  · intro h1 h2
    simp only [extract_matched_sentences]
    rw [if_neg (by rintro (h | h) <;> [exact h1 h; exact h2 h])]
  · intro s hs
    by_cases hg : ft = [] ∨ mk = []
    · rw [extract_matched_sentences, if_pos hg] at hs
      simp at hs
    · rw [extract_matched_sentences, if_neg hg] at hs
      rw [List.mem_map] at hs
      obtain ⟨seg, hseg, rfl⟩ := hs
      rw [List.mem_filter] at hseg
      obtain ⟨p1, q1, hsp⟩ := splitSents_mem hseg.1
      obtain ⟨p2, q2, hst⟩ := strip_decomp seg
      rw [hasSub_iff]
      refine ⟨p1 ++ p2, q2 ++ q1, ?_⟩
      calc ft = p1 ++ seg ++ q1 := hsp
        _ = p1 ++ (p2 ++ stripL seg ++ q2) ++ q1 := by rw [← hst]
        _ = (p1 ++ p2) ++ stripL seg ++ (q2 ++ q1) := by simp [List.append_assoc]

theorem claim_C3_wit :
    hasSub (strL "A new plant opens.") (strL "A new plant opens. Other news here.") = true :=
  (claim_C3 (strL "A new plant opens. Other news here.") [strL "new plant"]).2.2
    (strL "A new plant opens.") (by decide)

/-- C10: every sentence returned by extract_matched_sentences is
whitespace-trimmed: stripping it again changes nothing, so it never starts
or ends with whitespace even when the raw split segment did. -/
theorem claim_C10 (ft : Txt) (mk : List Txt) (s : Txt)
    (hs : s ∈ extract_matched_sentences ft mk) : stripL s = s := by
  by_cases hg : ft = [] ∨ mk = []
  · rw [extract_matched_sentences, if_pos hg] at hs
    simp at hs
  · rw [extract_matched_sentences, if_neg hg] at hs
    rw [List.mem_map] at hs
    obtain ⟨seg, -, rfl⟩ := hs
    exact stripL_idem seg

theorem claim_C10_wit : stripL (strL "Hiring is up.") = strL "Hiring is up." :=
  claim_C10 (strL "  Hiring is up.  ") [strL "hiring"] (strL "Hiring is up.") (by decide)

lemma count_filter_of_pos {p : Txt → Bool} {c : Txt} (hc : p c = true) :
    ∀ l : List Txt, (l.filter p).count c = l.count c := by
  intro l
  induction l with
  | nil => rfl
  | cons a l ih =>
    by_cases hpa : p a = true
    · rw [List.filter_cons_of_pos hpa, List.count_cons, List.count_cons, ih]
    · rw [List.filter_cons_of_neg (by simp [hpa]), List.count_cons, ih]
      have hca : (a == c) = false := by
        by_cases h : a = c
        · subst h; rw [hc] at hpa; exact absurd rfl hpa
        · simpa using h
      rw [hca]
      simp

/-- C8 counterexample: the empty string occurs as a substring of any
lower-cased text, yet match_companies never returns an empty entry, so the
claim that every entry occurring as a substring is returned is false for a
company list containing the empty string. -/
theorem claim_C8_cex :
    (∃ pre post, lowerL (strL "abc") = pre ++ strL "" ++ post) ∧
    strL "" ∉ match_companies (strL "abc") [strL ""] :=
  ⟨⟨[], strL "abc", by decide⟩, by decide⟩

/-- C8 (amended): match_companies returns every NON-EMPTY entry of the
company list that occurs as a substring of the lower-cased text, in the
list order and with the list multiplicity (no internal deduplication);
empty entries are always excluded. -/
theorem claim_C8 (text : Txt) (companies : List Txt) :
    List.Sublist (match_companies text companies) companies ∧
    (∀ c, c ∈ match_companies text companies ↔
      c ∈ companies ∧ c ≠ [] ∧ ∃ pre post, lowerL text = pre ++ c ++ post) ∧
    (∀ c, c ≠ [] → (∃ pre post, lowerL text = pre ++ c ++ post) →
      (match_companies text companies).count c = companies.count c) := by
  refine ⟨List.filter_sublist _, ?_, ?_⟩
  · intro c
    unfold match_companies
    rw [List.mem_filter]
    simp only [Bool.and_eq_true, Bool.not_eq_true', List.isEmpty_eq_false_iff_exists_mem,
      hasSub_iff]
    constructor
    · rintro ⟨hmem, hne, hsub⟩
      refine ⟨hmem, ?_, hsub⟩
      rintro rfl
      simp at hne
    · rintro ⟨hmem, hne, hsub⟩
      refine ⟨hmem, ?_, hsub⟩
      cases c with
      | nil => exact absurd rfl hne
      | cons a as => exact ⟨a, by simp⟩
  · intro c hc hsub
    unfold match_companies
    refine count_filter_of_pos ?_ companies
    simp only [Bool.and_eq_true, Bool.not_eq_true']
    constructor
    · cases c with
      | nil => exact absurd rfl hc
      | cons a as => simp
    · exact (hasSub_iff c (lowerL text)).mpr hsub

theorem claim_C8_wit :
    (match_companies (strL "Acme Corp rises") [strL "acme", strL "zeta"]).count (strL "acme")
      = ([strL "acme", strL "zeta"] : List Txt).count (strL "acme") :=
  (claim_C8 (strL "Acme Corp rises") [strL "acme", strL "zeta"]).2.2 (strL "acme")
    (by decide) ⟨strL "", strL " corp rises", by decide⟩

/-! Claim theorems for the extractor. -/

/-- C4: whenever the embedded JSON-LD block parses to an object with a
non-empty articleBody field, extract_from_html returns that field verbatim,
whatever the readability and raw-text stages would have produced. -/
theorem claim_C4 (d : HtmlDoc) (ab : Txt) (h1 : d.jsonLd = some (LdParse.dict ab))
    (h2 : ab ≠ []) : extract_from_html d = ab := by
  unfold extract_from_html
  rw [h1]
  simp [h2]

theorem claim_C4_wit :
    extract_from_html
      ⟨some (LdParse.dict (strL "body text")), some (strL "other readability text"),
        some (strL "raw text")⟩ = strL "body text" :=
  claim_C4 _ (strL "body text") rfl (by decide)

/-- C5: when the structured-data stage yields no usable body, extraction
always terminates with a string from the remaining chain: a readability
result longer than 50 characters is returned, one of at most 50 characters
is rejected in favour of the raw-text stage, a readability failure falls
through to the raw-text stage, and when that stage fails too the result is
the empty string; no failure escapes the chain. -/
theorem claim_C5 (d : HtmlDoc) (h : ldNoBody d) :
    extract_from_html d = readabilityStage d ∧
    (∀ t, d.readabilityText = some t → 50 < t.length → extract_from_html d = t) ∧
    (∀ t, d.readabilityText = some t → t.length ≤ 50 → extract_from_html d = rawStage d) ∧
    (d.readabilityText = none → extract_from_html d = rawStage d) ∧
    (d.readabilityText = none → d.rawText = none → extract_from_html d = []) := by
  have h0 : extract_from_html d = readabilityStage d := by
    unfold extract_from_html
    cases hj : d.jsonLd with
    | none => rfl
    | some lp =>
      cases lp with
      | fail => rfl
      | notDict => rfl
      | dict ab =>
        have hab : ab = [] := h ab hj
        simp [hab]
  refine ⟨h0, ?_, ?_, ?_, ?_⟩
  · intro t ht hlen
    rw [h0]
    unfold readabilityStage
    rw [ht]
    simp [hlen]
  · intro t ht hlen
    rw [h0]
    unfold readabilityStage
    rw [ht]
    simp only [if_neg (by omega : ¬50 < t.length)]
  · intro ht
    rw [h0]
    unfold readabilityStage
    rw [ht]
  · intro ht hr
    rw [h0]
    unfold readabilityStage rawStage
    rw [ht, hr]

theorem claim_C5_wit :
    extract_from_html ⟨some LdParse.fail, some (strL "too short"), some (strL "raw text")⟩
      = strL "raw text" :=
  (claim_C5 ⟨some LdParse.fail, some (strL "too short"), some (strL "raw text")⟩
      (by intro ab hab; simp at hab)).2.2.1 (strL "too short") rfl (by decide)

/-! Claim theorems for discovery. -/

/-- C6: with the cutoff no later than the current time, a feed entry whose
derived timestamp is strictly older than the cutoff is rejected, one at or
after the cutoff with a retrievable link is accepted with that timestamp as
provenance, an entry with neither published nor updated timestamp is
assigned the current time and therefore passes, an entry with no link nor
id is rejected, and a singleton feed discovery contains exactly the
accepted entries. -/
theorem claim_C6 (cutoff now : Int) (h : cutoff ≤ now) (sn : Option Txt) (fn fu : Txt)
    (e : FeedEntry) :
    (entryTimestamp now e < cutoff → processEntry cutoff now sn fn fu e = none) ∧
    (cutoff ≤ entryTimestamp now e → entryLink e ≠ [] →
      processEntry cutoff now sn fn fu e
        = some (entryLink e, ⟨strL "rss", sn, fn, some fu, entryTimestamp now e⟩)) ∧
    (e.published = none → e.updated = none →
      entryTimestamp now e = now ∧ ¬entryTimestamp now e < cutoff) ∧
    (entryLink e = [] → processEntry cutoff now sn fn fu e = none) ∧
    (∀ name url fdOpt,
      discover_from_rss cutoff now [⟨name, url, some ⟨fdOpt, [e]⟩⟩]
        = match processEntry cutoff now (feedTitleOf ⟨fdOpt, [e]⟩ name) name url e with
          | none => []
          | some lm => [(lm.1, lm.2)]) := by
  refine ⟨?_, ?_, ?_, ?_, ?_⟩
  · intro hlt
    simp only [processEntry]
    rw [if_pos hlt]
  · intro hge hlink
    simp only [processEntry]
    rw [if_neg (not_lt.mpr hge), if_neg hlink]
  · intro hp hu
    have ht : entryTimestamp now e = now := by
      simp [entryTimestamp, hp, hu]
    exact ⟨ht, by rw [ht]; exact not_lt.mpr h⟩
  · intro hlink
    simp only [processEntry]
    by_cases hlt : entryTimestamp now e < cutoff
    · rw [if_pos hlt]
    · rw [if_neg hlt, if_pos hlink]
  · intro name url fdOpt
    cases hp : processEntry cutoff now (feedTitleOf ⟨fdOpt, [e]⟩ name) name url e with
    | none => simp [discover_from_rss, hp]
    | some lm => simp [discover_from_rss, hp, dinsert]

theorem claim_C6_wit :
    processEntry 0 5 none (strL "feed") (strL "feedurl")
      ⟨some (-1), none, strL "u", strL ""⟩ = none :=
  (claim_C6 0 5 (by decide) none (strL "feed") (strL "feedurl")
    ⟨some (-1), none, strL "u", strL ""⟩).1 (by decide)

/-! Dictionary lemmas for the discovery registry. -/

lemma dlookup_dinsert {α : Type} (k : Txt) (v : α) (u : Txt) :
    ∀ d : List (Txt × α), dlookup (dinsert d k v) u = if k = u then some v else dlookup d u := by
  intro d
  induction d with
  | nil => simp [dinsert, dlookup]
  | cons a d ih =>
    obtain ⟨ak, av⟩ := a
    by_cases hka : k = ak
    · subst hka
      simp only [dinsert, dlookup]
      by_cases hau : k = u
      · rw [if_pos hau, if_pos hau]
      · rw [if_neg hau, if_neg hau, if_neg hau]
    · simp only [dinsert, if_neg hka, dlookup]
      rw [ih]
      by_cases hau : ak = u
      · have hku : ¬k = u := fun h => hka (by rw [h, hau])
        rw [if_pos hau, if_neg hku, if_pos hau]
      · rw [if_neg hau]
        by_cases hk : k = u
        · rw [if_pos hk, if_pos hk]
        · rw [if_neg hk, if_neg hk, if_neg hau]

lemma keys_dinsert {α : Type} (k : Txt) (v : α) :
    ∀ d : List (Txt × α), (dinsert d k v).map Prod.fst
      = if k ∈ d.map Prod.fst then d.map Prod.fst else d.map Prod.fst ++ [k] := by
  intro d
  induction d with
  | nil => simp [dinsert]
  | cons a d ih =>
    obtain ⟨ak, av⟩ := a
    by_cases hka : k = ak
    · subst hka
      simp only [dinsert, List.map_cons]
      rw [if_pos trivial, List.map_cons, if_pos (List.mem_cons_self _ _)]
    · simp only [dinsert, if_neg hka, List.map_cons, ih, List.mem_cons]
      by_cases hmem : k ∈ d.map Prod.fst
      · rw [if_pos hmem, if_pos (Or.inr hmem)]
      · rw [if_neg hmem, if_neg (by rintro (h | h); exacts [hka h, hmem h])]
        rfl

lemma keys_nodup_dinsert {α : Type} (k : Txt) (v : α) (d : List (Txt × α))
    (hd : (d.map Prod.fst).Nodup) : ((dinsert d k v).map Prod.fst).Nodup := by
  rw [keys_dinsert]
  by_cases hmem : k ∈ d.map Prod.fst
  · rw [if_pos hmem]; exact hd
  · rw [if_neg hmem]
    refine List.Nodup.append hd (List.nodup_singleton k) ?_
    intro a ha hb
    rw [List.mem_singleton] at hb
    subst hb
    exact hmem ha

lemma keys_nodup_dupdate {α : Type} :
    ∀ (ins : List (Txt × α)) (d : List (Txt × α)), (d.map Prod.fst).Nodup →
      ((dupdate d ins).map Prod.fst).Nodup := by
  intro ins
  induction ins with
  | nil => intro d hd; exact hd
  | cons a ins ih =>
    intro d hd
    simp only [dupdate, List.foldl_cons]
    exact ih (dinsert d a.1 a.2) (keys_nodup_dinsert a.1 a.2 d hd)

lemma mem_keys_dupdate {α : Type} (u : Txt) :
    ∀ (ins : List (Txt × α)) (d : List (Txt × α)),
      u ∈ (dupdate d ins).map Prod.fst ↔ u ∈ d.map Prod.fst ∨ u ∈ ins.map Prod.fst := by
  intro ins
  induction ins with
  | nil =>
    intro d
    constructor
    · intro h; exact Or.inl h
    · rintro (h | h)
      · exact h
      · rw [List.map_nil] at h; cases h
  | cons a ins ih =>
    intro d
    simp only [dupdate, List.foldl_cons, List.map_cons, List.mem_cons]
    rw [show List.foldl (fun acc p => dinsert acc p.1 p.2) (dinsert d a.1 a.2) ins
        = dupdate (dinsert d a.1 a.2) ins from rfl, ih]
    rw [keys_dinsert]
    by_cases hmem : a.1 ∈ d.map Prod.fst
    · simp only [if_pos hmem]
      constructor
      · rintro (hu | hu)
        · exact Or.inl hu
        · exact Or.inr (Or.inr hu)
      · rintro (hu | rfl | hu)
        · exact Or.inl hu
        · exact Or.inl hmem
        · exact Or.inr hu
    · simp only [if_neg hmem, List.mem_append, List.mem_singleton]
      tauto

lemma countP_key_of_nodup (u : Txt) {α : Type} :
    ∀ l : List (Txt × α), (l.map Prod.fst).Nodup →
      l.countP (fun p => p.1 == u) = if u ∈ l.map Prod.fst then 1 else 0 := by
  intro l
  induction l with
  | nil =>
    intro _
    rw [List.map_nil, if_neg (List.not_mem_nil u)]
    rfl
  | cons a l ih =>
    intro hd
    rw [List.map_cons, List.nodup_cons] at hd
    rw [List.countP_cons, ih hd.2, List.map_cons]
    by_cases hau : a.1 = u
    · have h1 : (a.1 == u) = true := by simpa using hau
      have hnotu : u ∉ l.map Prod.fst := by rw [← hau]; exact hd.1
      rw [if_neg hnotu, if_pos (List.mem_cons.mpr (Or.inl hau.symm)), h1, if_pos rfl]
    · have h1 : (a.1 == u) = false := by simpa using hau
      rw [h1, if_neg Bool.false_ne_true]
      by_cases hu : u ∈ l.map Prod.fst
      · rw [if_pos hu, if_pos (List.mem_cons_of_mem _ hu)]
      · rw [if_neg hu, if_neg (by
          intro h
          rcases List.mem_cons.mp h with h | h
          · exact hau h.symm
          · exact hu h)]

lemma dlookup_dupdate_eq {α : Type} (u : Txt) :
    ∀ (ins : List (Txt × α)) (d : List (Txt × α)),
      dlookup (dupdate d ins) u = orElseO (lastWrite ins u) (dlookup d u) := by
  intro ins
  induction ins with
  | nil => intro d; simp [dupdate, lastWrite, orElseO]
  | cons a ins ih =>
    intro d
    simp only [dupdate, List.foldl_cons]
    rw [show List.foldl (fun acc p => dinsert acc p.1 p.2) (dinsert d a.1 a.2) ins
        = dupdate (dinsert d a.1 a.2) ins from rfl, ih, dlookup_dinsert]
    simp only [lastWrite]
    cases hlw : lastWrite ins u with
    | some v => simp [orElseO]
    | none =>
      simp only [orElseO]
      by_cases hau : a.1 = u <;> simp [hau]

/-- C7: the discovery result is keyed by URL with at most one entry per
URL: folding any insertion sequence through the dict leaves exactly one
entry for a URL that was written at least once (and none otherwise), the
stored provenance is that of the last write, and merging a second source
with dict.update makes the later source win over whatever an earlier
source stored. -/
theorem claim_C7 (ins : List (Txt × Meta)) (u : Txt) :
    (discoverAll ins).countP (fun p => p.1 == u)
      = (if u ∈ ins.map Prod.fst then 1 else 0) ∧
    dlookup (discoverAll ins) u = lastWrite ins u ∧
    (∀ d e : List (Txt × Meta), dlookup (dupdate d e) u = orElseO (lastWrite e u) (dlookup d u)) := by
  refine ⟨?_, ?_, fun d e => dlookup_dupdate_eq u e d⟩
  · rw [countP_key_of_nodup u (discoverAll ins) (keys_nodup_dupdate ins [] (by simp))]
    simp only [discoverAll]
    by_cases hu : u ∈ ins.map Prod.fst
    · rw [if_pos hu, if_pos ((mem_keys_dupdate u ins []).mpr (Or.inr hu))]
    · rw [if_neg hu, if_neg ?_]
      intro hmem
      rcases (mem_keys_dupdate u ins []).mp hmem with hd | hi
      · simp at hd
      · exact hu hi
  · rw [show discoverAll ins = dupdate [] ins from rfl, dlookup_dupdate_eq]
    cases hlw : lastWrite ins u with
    | some v => simp [orElseO]
    | none => simp [orElseO, dlookup]

/-! Claim theorems for the pipeline driver. -/

/-- C1: for a processed URL (fetched html non-empty), the zero-match gate
on the lower-cased combined title and body text decides record production:
an empty match_keywords result means no record is produced and the loop
output continues unchanged with the remaining URLs, while a non-empty
result appends exactly one record for the document, carrying exactly the
matched keywords. -/
theorem claim_C1 (companies : List Txt) (extract getTitle : Txt → Txt) (sAt : Int)
    (fetch : Txt → FetchOutcome) (url : Txt) (meta : Meta) (rest : List (Txt × Meta))
    (seen : List Txt) (hseen : url ∉ seen) (hhtml : htmlOf (fetch url) ≠ []) :
    (match_keywords (combinedText (getTitle (htmlOf (fetch url))) (extract (htmlOf (fetch url))))
        = [] →
      processURL companies extract getTitle sAt url meta (fetch url) = none ∧
      mainLoop companies extract getTitle sAt fetch ((url, meta) :: rest) seen
        = mainLoop companies extract getTitle sAt fetch rest (url :: seen)) ∧
    (match_keywords (combinedText (getTitle (htmlOf (fetch url))) (extract (htmlOf (fetch url))))
        ≠ [] →
      ∃ r : MatchRecord,
        processURL companies extract getTitle sAt url meta (fetch url) = some r ∧
        r.matched_keywords
          = match_keywords
              (combinedText (getTitle (htmlOf (fetch url))) (extract (htmlOf (fetch url)))) ∧
        mainLoop companies extract getTitle sAt fetch ((url, meta) :: rest) seen
          = r :: mainLoop companies extract getTitle sAt fetch rest (url :: seen)) := by
  constructor
  · intro hgate
    have hp : processURL companies extract getTitle sAt url meta (fetch url) = none := by
      simp only [processURL]
      rw [if_neg hhtml, if_pos hgate]
    exact ⟨hp, by simp [mainLoop, hseen, hp]⟩
  · intro hgate
    have hp : processURL companies extract getTitle sAt url meta (fetch url)
        = some ⟨getTitle (htmlOf (fetch url)), url, meta.source_type, meta.source_name,
            meta.feed_name, meta.feed_url, meta.published_at, sAt,
            match_companies
              (combinedText (getTitle (htmlOf (fetch url))) (extract (htmlOf (fetch url))))
              companies,
            match_keywords
              (combinedText (getTitle (htmlOf (fetch url))) (extract (htmlOf (fetch url)))),
            match_keyword_categories
              (match_keywords
                (combinedText (getTitle (htmlOf (fetch url))) (extract (htmlOf (fetch url))))),
            extract_matched_sentences (extract (htmlOf (fetch url)))
              (match_keywords
                (combinedText (getTitle (htmlOf (fetch url))) (extract (htmlOf (fetch url))))),
            extract (htmlOf (fetch url)),
            if extract (htmlOf (fetch url)) = [] then []
            else (extract (htmlOf (fetch url))).take 400 ++ strL "..."⟩ := by
      simp only [processURL]
      rw [if_neg hhtml, if_neg hgate]
    exact ⟨_, hp, rfl, by simp [mainLoop, hseen, hp]⟩

theorem claim_C1_wit :
    ∃ r : MatchRecord,
      mainLoop [] (fun _ => strL "A new plant opens") (fun _ => strL "") 0
        (fun _ => FetchOutcome.resp 200 (strL "x")) [(strL "u", ⟨strL "rss", none, strL "f", none, 0⟩)] []
        = [r] := by
  obtain ⟨r, -, -, h3⟩ :=
    (claim_C1 [] (fun _ => strL "A new plant opens") (fun _ => strL "") 0
      (fun _ => FetchOutcome.resp 200 (strL "x")) (strL "u") ⟨strL "rss", none, strL "f", none, 0⟩
      [] [] (by simp) (by decide)).2 (by decide)
  exact ⟨r, by rw [h3]; rfl⟩

/-- C9: a fetch that raises or returns a non-200 response yields empty
html, the URL is skipped with no record produced, and the loop output is
exactly that of the remaining URLs; the loop fetches each URL once with no
retry. -/
theorem claim_C9 (companies : List Txt) (extract getTitle : Txt → Txt) (sAt : Int)
    (fetch : Txt → FetchOutcome) (url : Txt) (meta : Meta) (rest : List (Txt × Meta))
    (seen : List Txt) (hseen : url ∉ seen) (hfail : htmlOf (fetch url) = []) :
    processURL companies extract getTitle sAt url meta (fetch url) = none ∧
    mainLoop companies extract getTitle sAt fetch ((url, meta) :: rest) seen
      = mainLoop companies extract getTitle sAt fetch rest (url :: seen) ∧
    (∀ status text, status ≠ 200 → htmlOf (FetchOutcome.resp status text) = []) ∧
    htmlOf FetchOutcome.err = [] := by
  have hp : processURL companies extract getTitle sAt url meta (fetch url) = none := by
    simp only [processURL]
    rw [if_pos hfail]
  refine ⟨hp, by simp [mainLoop, hseen, hp], ?_, rfl⟩
  intro status text h
  simp only [htmlOf]
  rw [if_neg h]

theorem claim_C9_wit :
    mainLoop [] (fun h => h) (fun h => h) 0 (fun _ => FetchOutcome.resp 404 (strL "nf"))
      [(strL "u", ⟨strL "rss", none, strL "f", none, 0⟩)] [] = [] := by
  have h :=
    (claim_C9 [] (fun h => h) (fun h => h) 0 (fun _ => FetchOutcome.resp 404 (strL "nf"))
      (strL "u") ⟨strL "rss", none, strL "f", none, 0⟩ [] [] (by simp) (by decide)).2.1
  rw [h]
  rfl
